import Mathlib

/-!
Verification development for the coc-yank extension (`src/index.ts`).

Strings from the source are modelled as `List Char` (JS strings addressed by
character); UTF-8 byte lengths (`Buffer.byteLength`) are computed explicitly
per character.  The `TextYankPost` callback is embedded as a pure function
`handleYank` whose editor interactions in the Block branch (the `col('.')`
queries issued while stepping the cursor down) are supplied as a list of
possibly-failing responses, mirroring the fact that each `await nvim.call`
can reject; a rejection aborts the rest of the callback.  The completion
provider is embedded as the pure function `provideCompletionItems`.
-/

set_option autoImplicit false

namespace Yank

/-- UTF-8 encoded length of one unicode scalar value (`Buffer.byteLength` per char). -/
def utf8Len (c : Char) : Nat :=
  if c.toNat < 0x80 then 1
  else if c.toNat < 0x800 then 2
  else if c.toNat < 0x10000 then 3
  else 4

/-- `Buffer.byteLength(s, 'utf8')`. -/
def byteLen (s : List Char) : Nat :=
  (s.map utf8Len).sum

/-- `byteSlice(line, 0, col).length` from the source: the number of characters of
`line` that fit inside the first `col` bytes.  (The editor guarantees byte
offsets that fall on character boundaries.) -/
def charsWithinBytes : List Char → Nat → Nat
  | [], _ => 0
  | c :: rest, n => if utf8Len c ≤ n then charsWithinBytes rest (n - utf8Len c) + 1 else 0

/-- The JavaScript whitespace class used by the regexes and by `String.trim`. -/
def jsWs (c : Char) : Bool :=
  let n := c.toNat
  (9 ≤ n && n ≤ 13) || n == 32 || n == 160 || n == 0x1680 ||
    (0x2000 ≤ n && n ≤ 0x200a) || n == 0x2028 || n == 0x2029 ||
    n == 0x202f || n == 0x205f || n == 0x3000 || n == 0xfeff

/-- JavaScript `String.prototype.trim`: remove whitespace from both ends. -/
def jsTrim (s : List Char) : List Char :=
  ((s.dropWhile jsWs).reverse.dropWhile jsWs).reverse

/-- JavaScript `s.startsWith(pre)`. -/
def strStartsWith (s pre : List Char) : Bool :=
  match pre, s with
  | [], _ => true
  | _ :: _, [] => false
  | p :: ps, c :: cs => p == c && strStartsWith cs ps

/-- Decimal rendering of a number, as used in template literals. -/
def natChars (n : Nat) : List Char :=
  (Nat.repr n).data

/-- `regcontents.join('\n')`. -/
def joinLines (lines : List (List Char)) : List Char :=
  List.intercalate ['\n'] lines

/-- A 0-based (line, character) position (`vscode-languageserver-types` Position). -/
structure Pos where
  line : Nat
  character : Nat
  deriving DecidableEq

/-- A highlight range; `stop` embeds the source's `end` field. -/
structure Range where
  start : Pos
  stop : Pos
  deriving DecidableEq

/-- The live document: its lines, filetype and uri. -/
structure Document where
  lines : List (List Char)
  filetype : List Char
  uri : List Char
  deriving DecidableEq

/-- `doc.getline(i)`: the live line at 0-based index `i`, `''` out of bounds. -/
def Document.getline (d : Document) (i : Nat) : List Char :=
  d.lines.getD i []

/-- The `v:event` payload of `TextYankPost`. -/
structure YankEvent where
  regtype : List Char
  operator : List Char
  regcontents : List (List Char)
  deriving DecidableEq

/-- A record handed to `db.add(regcontents, regtype, path, filetype)`. -/
structure HistoryRecord where
  content : List (List Char)
  regtype : List Char
  path : List Char
  filetype : List Char
  deriving DecidableEq

/-- Configuration values read by the yank-event path. -/
structure Config where
  byteLengthLimit : Nat
  highlightEnable : Bool
  highlightDuration : Nat
  deriving DecidableEq

/-- Cursor/view operations issued during the Block-mode traversal. -/
inductive NvimEvent where
  | saveView
  | setpos
  | colQuery
  | cursorDown
  | restoreView
  deriving DecidableEq

/-- Observable outcome of one run of the `TextYankPost` callback. -/
structure HandlerResult where
  /-- cursor/view operations issued (Block branch only) -/
  events : List NvimEvent
  /-- ranges passed to `doc.matchAddRanges` -/
  ranges : List Range
  /-- whether the highlight application (`matchAddRanges`) was reached -/
  highlighted : Bool
  /-- the record handed to `db.add`, if any -/
  recorded : Option HistoryRecord
  /-- whether the callback aborted with a thrown error -/
  errored : Bool
  deriving DecidableEq

/-- The reserved tag `'^v'` under which Block captures are stored. -/
def blockTag : List Char := ['^', 'v']

/-- `regtype.startsWith('\x16')`. -/
def isBlockReg (rt : List Char) : Bool :=
  match rt with
  | [] => false
  | c :: _ => c == '\x16'

/-- Lines 83-87 of the source: join the content, skip if shorter than 4
characters, otherwise normalize a Block regtype to `'^v'` and build the
record handed to `db.add`. -/
def mkRecord (doc : Document) (ev : YankEvent) (lnum col : Nat) : Option HistoryRecord :=
  if (joinLines ev.regcontents).length < 4 then none
  else some
    { content := ev.regcontents
      regtype := if isBlockReg ev.regtype then blockTag else ev.regtype
      path := doc.uri ++ ['\t'] ++ natChars lnum ++ ['\t'] ++ natChars col
      filetype := doc.filetype }

/-- Lines 61-65 of the source: the single Char-mode (`regtype == 'v'`) range. -/
def charRange (character lnum : Nat) (regcontents : List (List Char)) : Range :=
  { start := ⟨lnum - 1, character⟩
    stop := ⟨lnum + regcontents.length - 2,
      if regcontents.length = 1 then character + (regcontents.headD []).length - 1
      else (regcontents.getLastD []).length⟩ }

/-- Lines 66-70 of the source: one full-width range per affected line in
Line mode (`regtype == 'V'`), read from the live document. -/
def lineRanges (doc : Document) (lnum n : Nat) : List Range :=
  (List.range n).map fun k =>
    ⟨⟨lnum + k - 1, 0⟩, ⟨lnum + k - 1, (doc.getline (lnum + k - 1)).length⟩⟩

/-- The Block-mode per-line loop (lines 51-59 of the source), with the loop
counter `i` running from `lnum`.  Each iteration issues a `col('.')` query
whose (possibly failing) response is taken from `cs`; a failing response
models a rejected `nvim.call`, which aborts the loop (and the rest of the
callback) with an error.  An exhausted response list also models a failed
call. -/
def blockLoop (doc : Document) : Nat → List (List Char) → List (Except Unit Nat) →
    List NvimEvent × Except Unit (List Range)
  | _, [], _ => ([], Except.ok [])
  | _, _ :: _, [] => ([], Except.error ())
  | _, _ :: _, Except.error e :: _ => ([NvimEvent.colQuery], Except.error e)
  | i, frag :: rest, Except.ok c :: cs =>
    let line := doc.getline (i - 1)
    let startCharacter := charsWithinBytes line (c - 1)
    let r : Range := ⟨⟨i - 1, startCharacter⟩, ⟨i - 1, startCharacter + frag.length⟩⟩
    let res := blockLoop doc (i + 1) rest cs
    (NvimEvent.colQuery :: NvimEvent.cursorDown :: res.1,
      Except.map (fun rs => r :: rs) res.2)

/-- Lines 48-60 of the source: `winsaveview`, `setpos` to the capture start,
the per-line loop, and `winrestview` — the latter only reached when every
step of the loop succeeded, since a rejected call inside the loop throws
past it. -/
def blockRanges (doc : Document) (lnum : Nat) (regcontents : List (List Char))
    (cols : List (Except Unit Nat)) : List NvimEvent × Except Unit (List Range) :=
  match blockLoop doc lnum regcontents cols with
  | (evts, Except.error e) => (NvimEvent.saveView :: NvimEvent.setpos :: evts, Except.error e)
  | (evts, Except.ok rs) =>
    (NvimEvent.saveView :: NvimEvent.setpos :: (evts ++ [NvimEvent.restoreView]), Except.ok rs)

/-- The `TextYankPost` callback (lines 27-88 of the source), as a function of
the configuration, the (possibly missing) document, the event payload, the
`'['` mark position `(lnum, col)` and the Block-loop column responses. -/
def handleYank (cfg : Config) (doc? : Option Document) (ev : YankEvent)
    (lnum col : Nat) (cols : List (Except Unit Nat)) : HandlerResult :=
  match doc? with
  | none => ⟨[], [], false, none, false⟩
  | some doc =>
    if (ev.regcontents.map byteLen).sum > cfg.byteLengthLimit then ⟨[], [], false, none, false⟩
    else
      let character := charsWithinBytes (doc.getline (lnum - 1)) col
      if ev.operator = ['y'] then
        if !cfg.highlightEnable then ⟨[], [], false, none, false⟩
        else if isBlockReg ev.regtype then
          match blockRanges doc lnum ev.regcontents cols with
          | (evts, Except.error _) => ⟨evts, [], false, none, true⟩
          | (evts, Except.ok rs) => ⟨evts, rs, true, mkRecord doc ev lnum col, false⟩
        else if ev.regtype = ['v'] then
          ⟨[], [charRange character lnum ev.regcontents], true, mkRecord doc ev lnum col, false⟩
        else if ev.regtype = ['V'] then
          ⟨[], lineRanges doc lnum ev.regcontents.length, true, mkRecord doc ev lnum col, false⟩
        else ⟨[], [], false, none, false⟩
      else ⟨[], [], false, mkRecord doc ev lnum col, false⟩

/-- The completion request context's `option` field. -/
structure CompleteOption where
  input : List Char
  line : List Char
  col : Nat
  deriving DecidableEq

/-- Configuration values read by the completion path. -/
structure CompletionConfig where
  enableCompletion : Bool
  limit : Nat
  deriving DecidableEq

/-- A produced completion candidate (`kind` is `CompletionItemKind.Snippet = 15`,
`documentation` is the rendered markdown string). -/
structure CompletionItem where
  label : List Char
  insertText : List Char
  kind : Nat
  documentation : List Char
  deriving DecidableEq

/-- The filter body at lines 101-104 of the source: drop `'^v'` records, keep
records whose filetype matches the document's language and whose first
content line, `trim()`med, starts with the typed input. -/
def keepRecord (languageId input : List Char) (o : HistoryRecord) : Bool :=
  if o.regtype = blockTag then false
  else o.filetype == languageId && strStartsWith (jsTrim (o.content.headD [])) input

/-- Lines 99-109 of the source: reverse the loaded history, apply the
language/prefix filter, drop Line-mode records when the text before the
cursor is non-blank, and truncate to the configured limit. -/
def survivors (ccfg : CompletionConfig) (languageId : List Char) (opt : CompleteOption)
    (items : List HistoryRecord) : List HistoryRecord :=
  let rev := items.reverse
  let kept := rev.filter (keepRecord languageId opt.input)
  let beforeContent := opt.line.take opt.col
  let kept2 := if beforeContent.all jsWs then kept else kept.filter fun o => o.regtype ≠ ['V']
  kept2.take ccfg.limit

/-- `Math.min(ms.length, p)` where `none` stands for the `Infinity` accumulator. -/
def minWithInf : Option Nat → Nat → Option Nat
  | none, n => some n
  | some m, n => some (min m n)

/-- `s.slice(ind)` where `ind` may be `Infinity` (`none`). -/
def dropInd (s : List Char) : Option Nat → List Char
  | none => []
  | some n => s.drop n

/-- Lines 111-114 of the source: `content.reduce((p, s) => min(ms.length, p), Infinity)`
where `ms` is the leading-whitespace run of `s`. -/
def computeInd (content : List (List Char)) : Option Nat :=
  content.foldl (fun p s => minWithInf p (s.takeWhile jsWs).length) none

/-- Lines 115-118 of the source: strip all leading whitespace from the first
line and `slice(ind)` from every later line. -/
def dedentLines (content : List (List Char)) : List (List Char) :=
  let ind := computeInd content
  content.enum.map fun p => if p.1 = 0 then p.2.dropWhile jsWs else dropInd p.2 ind

/-- `markdownBlock` (lines 138-142 of the source). -/
def markdownBlock (code filetype : List Char) : List Char :=
  let ft := if filetype = "javascriptreact".data then "javascript".data else filetype
  let ft2 := if ft = "typescriptreact".data then "typescript".data else ft
  "``` ".data ++ ft2 ++ ['\n'] ++ code ++ ['\n'] ++ "```".data

/-- The candidate built from one surviving record (lines 110-128 of the source). -/
def buildItem (item : HistoryRecord) : CompletionItem :=
  let lines := dedentLines item.content
  { label := jsTrim (item.content.headD [])
    insertText := joinLines lines
    kind := 15
    documentation := markdownBlock (joinLines lines) item.filetype }

/-- `provideCompletionItems` (lines 92-129 of the source): `some []` when
completion is disabled, an absent result (`none`, the source's bare
`return`) when the context has no option or an empty input, otherwise the
candidates built from the surviving records. -/
def provideCompletionItems (ccfg : CompletionConfig) (languageId : List Char)
    (ctx : Option CompleteOption) (items : List HistoryRecord) :
    Option (List CompletionItem) :=
  if !ccfg.enableCompletion then some []
  else
    match ctx with
    | none => none
    | some opt =>
      if opt.input = [] then none
      else some ((survivors ccfg languageId opt items).map buildItem)

/-- Modelled from the spec: "compute the minimum leading-whitespace run length
across all content lines" (spec-side comparator for the dedent step). -/
def specCommonIndent (content : List (List Char)) : Nat :=
  match content.map (fun s => (s.takeWhile jsWs).length) with
  | [] => 0
  | x :: xs => xs.foldl min x

/-- Modelled from the spec: "the first line has all leading whitespace removed
entirely; every subsequent line has exactly the computed common-indentation
length removed from its start" (spec-side comparator for the dedent step). -/
def specDedent (content : List (List Char)) : List (List Char) :=
  match content with
  | [] => []
  | first :: rest =>
    first.dropWhile jsWs :: rest.map fun s => s.drop (specCommonIndent content)

/-- A range lies inside the live document: both lines exist and neither
character position exceeds the character length of its live line. -/
def Range.inBounds (doc : Document) (r : Range) : Prop :=
  r.start.line < doc.lines.length ∧ r.stop.line < doc.lines.length ∧
    r.start.character ≤ (doc.getline r.start.line).length ∧
    r.stop.character ≤ (doc.getline r.stop.line).length

/-- Event/document consistency: the captured fragment `frag` is what the live
document holds on line `line` starting at character `ch`. -/
def fragmentAt (doc : Document) (line ch : Nat) (frag : List Char) : Prop :=
  ((doc.getline line).drop ch).take frag.length = frag

/-- C1 as stated is false: on a recognized Char-mode yank with highlighting
enabled whose content exceeds the byte ceiling (4 bytes against a limit of
3), the early `return` at line 36 skips highlighting as well — `matchAddRanges`
is never reached, refuting "highlighting still proceeds". -/
theorem c1_overLimit_no_highlight :
    (handleYank ⟨3, true, 500⟩ (some ⟨[['a', 'b', 'c', 'd']], [], []⟩)
        ⟨['v'], ['y'], [['a', 'b', 'c', 'd']]⟩ 1 0 []).highlighted ≠ true ∧
      (handleYank ⟨3, true, 500⟩ (some ⟨[['a', 'b', 'c', 'd']], [], []⟩)
          ⟨['v'], ['y'], [['a', 'b', 'c', 'd']]⟩ 1 0 []).recorded = none := by
  decide

/-- C1 (amended): when the total UTF-8 byte length of the captured lines
exceeds the configured byteLengthLimit, the whole event handler returns
early — recording AND highlighting are both skipped, no cursor operation is
issued and no range is built. -/
theorem c1_overLimit_skips_event (cfg : Config) (doc : Document) (ev : YankEvent)
    (lnum col : Nat) (cols : List (Except Unit Nat))
    (h : (ev.regcontents.map byteLen).sum > cfg.byteLengthLimit) :
    handleYank cfg (some doc) ev lnum col cols = ⟨[], [], false, none, false⟩ := by
  simp [handleYank, h]

/-- Witness for `c1_overLimit_skips_event` at a concrete over-limit input. -/
theorem c1_overLimit_skips_event_w :
    handleYank ⟨3, true, 500⟩ (some ⟨[['a', 'b', 'c', 'd']], [], []⟩)
        ⟨['v'], ['y'], [['a', 'b', 'c', 'd']]⟩ 1 0 [] = ⟨[], [], false, none, false⟩ :=
  c1_overLimit_skips_event ⟨3, true, 500⟩ ⟨[['a', 'b', 'c', 'd']], [], []⟩
    ⟨['v'], ['y'], [['a', 'b', 'c', 'd']]⟩ 1 0 [] (by decide)

/-- C2 as stated is false: an event with the yank operator, highlighting
enabled, qualifying content (4 characters, within the byte limit) but an
unrecognized selection mode hits the `return` at line 72 before the
recording code, so no history record is created. -/
theorem c2_unrecognized_mode_not_recorded :
    (handleYank ⟨10240, true, 500⟩ (some ⟨[['a', 'b', 'c', 'd']], [], []⟩)
        ⟨['x'], ['y'], [['a', 'b', 'c', 'd']]⟩ 1 0 []).recorded = none ∧
      4 ≤ (joinLines [['a', 'b', 'c', 'd']]).length ∧
      ([['a', 'b', 'c', 'd']].map byteLen).sum ≤ 10240 := by
  decide

/-- C2 (amended): when the operator is not the yank operator, a history
record is created for every event whose document exists, whose content is
within the byte ceiling and whose joined length is at least 4 characters —
regardless of the selection mode.  (When the operator IS `'y'`, a disabled
highlight configuration or an unrecognized mode returns early and skips
recording as well.) -/
theorem c2_record_when_not_yank_operator (cfg : Config) (doc : Document) (ev : YankEvent)
    (lnum col : Nat) (cols : List (Except Unit Nat))
    (hlen : (ev.regcontents.map byteLen).sum ≤ cfg.byteLengthLimit)
    (hop : ev.operator ≠ ['y'])
    (hmin : 4 ≤ (joinLines ev.regcontents).length) :
    (handleYank cfg (some doc) ev lnum col cols).recorded = some
      { content := ev.regcontents
        regtype := if isBlockReg ev.regtype then blockTag else ev.regtype
        path := doc.uri ++ ['\t'] ++ natChars lnum ++ ['\t'] ++ natChars col
        filetype := doc.filetype } := by
  have h1 : ¬ (ev.regcontents.map byteLen).sum > cfg.byteLengthLimit := Nat.not_lt.mpr hlen
  have h2 : ¬ (joinLines ev.regcontents).length < 4 := Nat.not_lt.mpr hmin
  simp [handleYank, h1, hop, mkRecord, h2]

/-- Witness for `c2_record_when_not_yank_operator`: a delete-operator event
with an unrecognized mode is still recorded. -/
theorem c2_record_when_not_yank_operator_w :
    (handleYank ⟨10240, true, 500⟩ (some ⟨[['a', 'b', 'c', 'd']], ['p'], ['u']⟩)
        ⟨['x'], ['d'], [['a', 'b', 'c', 'd']]⟩ 1 0 []).recorded = some
      { content := [['a', 'b', 'c', 'd']]
        regtype := if isBlockReg ['x'] then blockTag else ['x']
        path := ['u'] ++ ['\t'] ++ natChars 1 ++ ['\t'] ++ natChars 0
        filetype := ['p'] } :=
  c2_record_when_not_yank_operator ⟨10240, true, 500⟩ ⟨[['a', 'b', 'c', 'd']], ['p'], ['u']⟩
    ⟨['x'], ['d'], [['a', 'b', 'c', 'd']]⟩ 1 0 [] (by decide) (by decide) (by decide)

/-- C4 as stated is false: with completion enabled and no option in the
request context, the provider takes the bare `return` at line 98 and yields
an absent result, not an empty list. -/
theorem c4_missing_option_not_empty_list :
    ¬ (provideCompletionItems ⟨true, 3⟩ ['p'] none [] = some []) := by
  decide

/-- C4 (amended): with completion enabled, a request context with no option
object, or with an empty typed input, makes the provider return an absent
(undefined) result rather than an empty candidate list. -/
theorem c4_missing_option_returns_none (ccfg : CompletionConfig) (languageId : List Char)
    (items : List HistoryRecord) (hen : ccfg.enableCompletion = true) :
    provideCompletionItems ccfg languageId none items = none ∧
      ∀ o : CompleteOption, o.input = [] →
        provideCompletionItems ccfg languageId (some o) items = none := by
  constructor
  · simp [provideCompletionItems, hen]
  · intro o ho
    simp [provideCompletionItems, hen, ho]

/-- Witness for `c4_missing_option_returns_none` at a concrete request. -/
theorem c4_missing_option_returns_none_w :
    provideCompletionItems ⟨true, 3⟩ ['p'] none [] = none :=
  (c4_missing_option_returns_none ⟨true, 3⟩ ['p'] [] rfl).1

/-- C10: when completion is disabled via `enableCompletion`, the provider
returns an empty array for every request — even one with no typed-input
option — and never an absent result. -/
theorem c10_disabled_completion_empty (ccfg : CompletionConfig) (languageId : List Char)
    (ctx : Option CompleteOption) (items : List HistoryRecord)
    (h : ccfg.enableCompletion = false) :
    provideCompletionItems ccfg languageId ctx items = some [] := by
  simp [provideCompletionItems, h]

/-- Witness for `c10_disabled_completion_empty` at a concrete request. -/
theorem c10_disabled_completion_empty_w :
    provideCompletionItems ⟨false, 3⟩ ['p'] none [] = some [] :=
  c10_disabled_completion_empty ⟨false, 3⟩ ['p'] none [] rfl

/-- C3: for a Char-mode yank event that reaches the range builder, the single
produced range starts at `(startLine - 1, c)`; when exactly one line of
length `L` was captured it ends at `(startLine - 1, c + L - 1)` (inclusive
end), and when `N > 1` lines were captured it ends at line
`startLine + N - 2` with end character the full character length of the
last captured fragment. -/
theorem c3_char_mode_range (cfg : Config) (doc : Document) (ev : YankEvent)
    (lnum col : Nat) (cols : List (Except Unit Nat))
    (hlim : (ev.regcontents.map byteLen).sum ≤ cfg.byteLengthLimit)
    (hop : ev.operator = ['y'])
    (hen : cfg.highlightEnable = true)
    (hreg : ev.regtype = ['v']) :
    (∀ l : List Char, ev.regcontents = [l] →
        (handleYank cfg (some doc) ev lnum col cols).ranges =
          [⟨⟨lnum - 1, charsWithinBytes (doc.getline (lnum - 1)) col⟩,
            ⟨lnum - 1, charsWithinBytes (doc.getline (lnum - 1)) col + l.length - 1⟩⟩]) ∧
      (2 ≤ ev.regcontents.length →
        (handleYank cfg (some doc) ev lnum col cols).ranges =
          [⟨⟨lnum - 1, charsWithinBytes (doc.getline (lnum - 1)) col⟩,
            ⟨lnum + ev.regcontents.length - 2, (ev.regcontents.getLastD []).length⟩⟩]) := by
  have h1 : ¬ (ev.regcontents.map byteLen).sum > cfg.byteLengthLimit := Nat.not_lt.mpr hlim
  have hblk2 : isBlockReg ['v'] = false := by decide
  constructor
  · intro l hl
    have h1' : ¬ cfg.byteLengthLimit < byteLen l := by
      rw [hl] at hlim
      simp at hlim
      omega
    simp [handleYank, h1', hop, hen, hreg, hblk2, charRange, hl]
  · intro hn
    have hne : ev.regcontents.length ≠ 1 := by omega
    simp [handleYank, h1, hop, hen, hreg, hblk2, charRange, hne]

/-- Witness for `c3_char_mode_range`: yanking the two characters at columns
1-2 of a five-character line produces the inclusive single-line range. -/
theorem c3_char_mode_range_w :
    (handleYank ⟨10240, true, 500⟩ (some ⟨[['a', 'b', 'c', 'd', 'e']], ['p'], ['u']⟩)
        ⟨['v'], ['y'], [['b', 'c']]⟩ 1 1 []).ranges = [⟨⟨0, 1⟩, ⟨0, 2⟩⟩] := by
  have h := (c3_char_mode_range ⟨10240, true, 500⟩ ⟨[['a', 'b', 'c', 'd', 'e']], ['p'], ['u']⟩
    ⟨['v'], ['y'], [['b', 'c']]⟩ 1 1 [] (by decide) rfl rfl rfl).1 ['b', 'c'] rfl
  simpa using h

/-- The `reduce` with an `Infinity` accumulator computes the minimum once the
accumulator is finite. -/
theorem foldl_minWithInf (l : List (List Char)) (m : Nat) :
    List.foldl (fun p s => minWithInf p (s.takeWhile jsWs).length) (some m) l =
      some (List.foldl (fun p s => min p (s.takeWhile jsWs).length) m l) := by
  induction l generalizing m with
  | nil => rfl
  | cons x xs ih =>
    rw [List.foldl_cons, List.foldl_cons]
    exact ih (min m (x.takeWhile jsWs).length)

/-- On nonempty content, the source's `reduce` over `Infinity` equals the
spec's minimum leading-whitespace run across all lines. -/
theorem computeInd_cons (first : List Char) (rest : List (List Char)) :
    computeInd (first :: rest) = some (specCommonIndent (first :: rest)) := by
  have h0 : computeInd (first :: rest) =
      List.foldl (fun p s => minWithInf p (s.takeWhile jsWs).length)
        (some (first.takeWhile jsWs).length) rest := rfl
  rw [h0, foldl_minWithInf]
  simp only [specCommonIndent, List.map_cons, List.foldl_map]

/-- Mapping the dedent step over lines enumerated from a positive index
always takes the `slice(ind)` branch. -/
theorem enumFrom_dedent (m : Nat) (rest : List (List Char)) : ∀ n : Nat,
    (rest.enumFrom (n + 1)).map
        (fun p => if p.1 = 0 then p.2.dropWhile jsWs else dropInd p.2 (some m)) =
      rest.map fun s => s.drop m := by
  induction rest with
  | nil => intro n; rfl
  | cons x xs ih =>
    intro n
    simp only [List.enumFrom, List.map_cons, Nat.succ_ne_zero, if_false, dropInd]
    exact congrArg _ (ih (n + 1))

/-- The dedent step of the source equals the spec-side dedent on nonempty
content. -/
theorem dedentLines_eq_spec (content : List (List Char)) (h : content ≠ []) :
    dedentLines content = specDedent content := by
  match content with
  | [] => exact absurd rfl h
  | first :: rest =>
    simp only [dedentLines, computeInd_cons, specDedent, List.enum, List.enumFrom,
      List.map_cons, if_pos rfl]
    exact congrArg _ (enumFrom_dedent (specCommonIndent (first :: rest)) rest 0)

/-- C5: the insert text of every built candidate is obtained by computing the
minimum leading-whitespace run length across all content lines, removing
all leading whitespace from the first line, and removing exactly that
common minimum from the start of every subsequent line. -/
theorem c5_insertText_dedent (r : HistoryRecord) (h : r.content ≠ []) :
    (buildItem r).insertText = joinLines (specDedent r.content) := by
  simp only [buildItem]
  rw [dedentLines_eq_spec r.content h]

/-- Witness for `c5_insertText_dedent` on a concrete two-line record with
uneven indentation (common indent 2; the second line keeps its extra
nesting). -/
theorem c5_insertText_dedent_w :
    (buildItem ⟨[[' ', ' ', 'a'], [' ', ' ', ' ', ' ', 'b']], ['v'], [], ['p']⟩).insertText =
      joinLines (specDedent [[' ', ' ', 'a'], [' ', ' ', ' ', ' ', 'b']]) :=
  c5_insertText_dedent ⟨[[' ', ' ', 'a'], [' ', ' ', ' ', ' ', 'b']], ['v'], [], ['p']⟩
    (by decide)

/-- The per-line Block loop itself never issues `winrestview`. -/
theorem restore_not_in_blockLoop (doc : Document) :
    ∀ (frags : List (List Char)) (i : Nat) (cs : List (Except Unit Nat)),
      NvimEvent.restoreView ∉ (blockLoop doc i frags cs).1 := by
  intro frags
  induction frags with
  | nil => intro i cs; simp [blockLoop]
  | cons f rest ih =>
    intro i cs
    match cs with
    | [] => simp [blockLoop]
    | Except.error e :: cs2 => simp [blockLoop]
    | Except.ok c :: cs2 =>
      simp [blockLoop]
      exact ih (i + 1) cs2

/-- C6 as stated is false: with a single captured line whose `col('.')` query
fails, the traversal stops after `winsaveview` and `setpos` and the error
propagates — `winrestview` is never issued, so the saved view is not
restored on that exit path. -/
theorem c6_failed_step_view_not_restored :
    NvimEvent.restoreView ∉
        (blockRanges ⟨[['a', 'b']], [], []⟩ 1 [['a']] [Except.error ()]).1 ∧
      NvimEvent.saveView ∈
        (blockRanges ⟨[['a', 'b']], [], []⟩ 1 [['a']] [Except.error ()]).1 := by
  decide

/-- C6 (amended): the Block-mode traversal saves the window view first on
every path; when every step succeeds the view is restored immediately after
the traversal (the final cursor operation), but when a step fails the
traversal aborts with the error and the view is NOT restored. -/
theorem c6_view_restore_on_success_only (doc : Document) (lnum : Nat)
    (regcontents : List (List Char)) (cols : List (Except Unit Nat)) :
    (blockRanges doc lnum regcontents cols).1.head? = some NvimEvent.saveView ∧
      (∀ rs, (blockRanges doc lnum regcontents cols).2 = Except.ok rs →
        (blockRanges doc lnum regcontents cols).1 =
          NvimEvent.saveView :: NvimEvent.setpos ::
            ((blockLoop doc lnum regcontents cols).1 ++ [NvimEvent.restoreView])) ∧
      (∀ e, (blockRanges doc lnum regcontents cols).2 = Except.error e →
        NvimEvent.restoreView ∉ (blockRanges doc lnum regcontents cols).1) := by
  rcases hbl : blockLoop doc lnum regcontents cols with ⟨evts, res⟩
  cases res with
  | error e =>
    have hni := restore_not_in_blockLoop doc regcontents lnum cols
    rw [hbl] at hni
    refine ⟨by simp [blockRanges, hbl], by simp [blockRanges, hbl], ?_⟩
    intro e2 h2
    simp [blockRanges, hbl]
    exact hni
  | ok rs =>
    refine ⟨by simp [blockRanges, hbl], ?_, by simp [blockRanges, hbl]⟩
    intro rs2 h2
    simp [blockRanges, hbl]

/-- Witness for `c6_view_restore_on_success_only`: a one-line Block traversal
whose column query succeeds ends with `winrestview`. -/
theorem c6_view_restore_on_success_only_w :
    (blockRanges ⟨[['a', 'b']], [], []⟩ 1 [['a']] [Except.ok 1]).1.head? =
        some NvimEvent.saveView ∧
      (blockRanges ⟨[['a', 'b']], [], []⟩ 1 [['a']] [Except.ok 1]).1 =
        NvimEvent.saveView :: NvimEvent.setpos ::
          ((blockLoop ⟨[['a', 'b']], [], []⟩ 1 [['a']] [Except.ok 1]).1 ++
            [NvimEvent.restoreView]) :=
  ⟨(c6_view_restore_on_success_only ⟨[['a', 'b']], [], []⟩ 1 [['a']] [Except.ok 1]).1,
    (c6_view_restore_on_success_only ⟨[['a', 'b']], [], []⟩ 1 [['a']]
      [Except.ok 1]).2.1 [⟨⟨0, 0⟩, ⟨0, 1⟩⟩] rfl⟩

/-- Every run of the callback either records nothing or hands `mkRecord`'s
result to the store. -/
theorem handleYank_recorded (cfg : Config) (doc : Document) (ev : YankEvent)
    (lnum col : Nat) (cols : List (Except Unit Nat)) :
    (handleYank cfg (some doc) ev lnum col cols).recorded = none ∨
      (handleYank cfg (some doc) ev lnum col cols).recorded = mkRecord doc ev lnum col := by
  simp only [handleYank]
  repeat' split
  all_goals simp

/-- A stored record's regtype is the normalized regtype: `'^v'` for any
Block-flavored raw regtype, the raw regtype otherwise. -/
theorem mkRecord_regtype (doc : Document) (ev : YankEvent) (lnum col : Nat)
    (r : HistoryRecord) (h : mkRecord doc ev lnum col = some r) :
    r.regtype = if isBlockReg ev.regtype then blockTag else ev.regtype := by
  unfold mkRecord at h
  split at h
  · exact absurd h (by simp)
  · injection h with h2
    rw [← h2]

/-- Every record surviving the completion filters passes the language/prefix
filter body. -/
theorem mem_survivors_keep (ccfg : CompletionConfig) (languageId : List Char)
    (opt : CompleteOption) (items : List HistoryRecord) (r : HistoryRecord)
    (h : r ∈ survivors ccfg languageId opt items) :
    keepRecord languageId opt.input r = true := by
  simp only [survivors] at h
  have h1 := List.take_subset _ _ h
  by_cases hc : (opt.line.take opt.col).all jsWs = true
  · rw [if_pos hc] at h1
    exact (List.mem_filter.mp h1).2
  · rw [if_neg hc] at h1
    exact (List.mem_filter.mp (List.mem_of_mem_filter h1)).2

/-- C7: a history record created by the yank handler from a Block-mode
capture (any raw regtype starting with the block control byte `'\x16'`) is
stored under the reserved `'^v'` tag and is never among the surviving
records of any completion request — so no candidate is ever built from it,
regardless of language, prefix or limit. -/
theorem c7_block_record_never_completed (cfg : Config) (doc? : Option Document)
    (ev : YankEvent) (lnum col : Nat) (cols : List (Except Unit Nat)) (r : HistoryRecord)
    (hb : isBlockReg ev.regtype = true)
    (hr : (handleYank cfg doc? ev lnum col cols).recorded = some r) :
    ∀ (ccfg : CompletionConfig) (languageId : List Char) (opt : CompleteOption)
      (items : List HistoryRecord), r ∉ survivors ccfg languageId opt items := by
  intro ccfg languageId opt items hmem
  have hrt : r.regtype = blockTag := by
    match doc? with
    | none => simp [handleYank] at hr
    | some doc =>
      rcases handleYank_recorded cfg doc ev lnum col cols with h | h
      · rw [h] at hr
        exact absurd hr (by simp)
      · rw [h] at hr
        have h3 := mkRecord_regtype doc ev lnum col r hr
        simpa [hb] using h3
  have hk := mem_survivors_keep ccfg languageId opt items r hmem
  rw [keepRecord, if_pos hrt] at hk
  exact absurd hk (by simp)

/-- Witness for `c7_block_record_never_completed`: the record produced from a
concrete Block yank (raw regtype `'\x164'`, stored as `'^v'`) is not among
the survivors even when it is the only loaded record and every other filter
would match. -/
theorem c7_block_record_never_completed_w :
    (⟨[['h', 'i', 'h', 'i']], ['^', 'v'],
        ['u'] ++ ['\t'] ++ natChars 1 ++ ['\t'] ++ natChars 0, ['p']⟩ : HistoryRecord) ∉
      survivors ⟨true, 3⟩ ['p'] ⟨['h', 'i'], [], 0⟩
        [⟨[['h', 'i', 'h', 'i']], ['^', 'v'],
          ['u'] ++ ['\t'] ++ natChars 1 ++ ['\t'] ++ natChars 0, ['p']⟩] :=
  c7_block_record_never_completed ⟨10240, true, 500⟩
    (some ⟨[['h', 'i', 'h', 'i']], ['p'], ['u']⟩)
    ⟨['\x16', '4'], ['d'], [['h', 'i', 'h', 'i']]⟩ 1 0 [] _ (by decide) (by decide)
    ⟨true, 3⟩ ['p'] ⟨['h', 'i'], [], 0⟩ _

/-- C8 as stated is false: the source filter applies `trim()` — which removes
trailing whitespace as well — to the first content line, so the record
`"hi  "` is rejected for the typed prefix `"hi "`, which the claim's
leading-only trim would keep. -/
theorem c8_filter_trims_trailing_too :
    ¬ (keepRecord ['p'] ['h', 'i', ' '] ⟨[['h', 'i', ' ', ' ']], ['v'], [], ['p']⟩ = true ↔
      ((⟨[['h', 'i', ' ', ' ']], ['v'], [], ['p']⟩ : HistoryRecord).filetype = ['p'] ∧
        strStartsWith (['h', 'i', ' ', ' '].dropWhile jsWs) ['h', 'i', ' '] = true)) := by
  decide

/-- C8 (amended): a non-Block record is kept by the language/prefix filter iff
its language tag equals the requesting document's language and its first
content line trimmed of both leading AND trailing whitespace starts with
the typed prefix. -/
theorem c8_filter_keep_iff_trimmed (languageId input : List Char) (o : HistoryRecord)
    (h : o.regtype ≠ blockTag) :
    keepRecord languageId input o = true ↔
      (o.filetype = languageId ∧
        strStartsWith (jsTrim (o.content.headD [])) input = true) := by
  unfold keepRecord
  rw [if_neg h]
  simp [Bool.and_eq_true, beq_iff_eq]

/-- Witness for `c8_filter_keep_iff_trimmed` at a concrete non-Block record. -/
theorem c8_filter_keep_iff_trimmed_w :
    keepRecord ['p'] ['h', 'i'] ⟨[['h', 'i', ' ', ' ']], ['v'], [], ['p']⟩ = true ↔
      ((⟨[['h', 'i', ' ', ' ']], ['v'], [], ['p']⟩ : HistoryRecord).filetype = ['p'] ∧
        strStartsWith (jsTrim ([['h', 'i', ' ', ' ']].headD [])) ['h', 'i'] = true) :=
  c8_filter_keep_iff_trimmed ['p'] ['h', 'i'] ⟨[['h', 'i', ' ', ' ']], ['v'], [], ['p']⟩
    (by decide)

/-- Byte-to-character translation never exceeds the line's character length. -/
theorem charsWithinBytes_le (s : List Char) : ∀ n : Nat, charsWithinBytes s n ≤ s.length := by
  induction s with
  | nil => intro n; simp [charsWithinBytes]
  | cons c rest ih =>
    intro n
    simp only [charsWithinBytes, List.length_cons]
    split
    · exact Nat.add_le_add_right (ih _) 1
    · exact Nat.zero_le _

/-- A fragment consistent with the live document fits inside its line. -/
theorem fragmentAt_bound (doc : Document) (line ch : Nat) (frag : List Char)
    (hch : ch ≤ (doc.getline line).length) (h : fragmentAt doc line ch frag) :
    ch + frag.length ≤ (doc.getline line).length := by
  have hlen := congrArg List.length h
  rw [List.length_take, List.length_drop] at hlen
  have h3 := Nat.min_le_right frag.length ((doc.getline line).length - ch)
  rw [hlen] at h3
  omega

/-- Every range produced by a successful Block traversal is in bounds, given
that the affected lines exist and each fragment is consistent with the live
document at the queried column. -/
theorem blockLoop_inBounds (doc : Document) :
    ∀ (frags : List (List Char)) (i : Nat) (cs : List (Except Unit Nat)),
      (∀ k, k < frags.length → i + k - 1 < doc.lines.length) →
      (∀ k c, k < frags.length → cs.get? k = some (Except.ok c) →
        fragmentAt doc (i + k - 1) (charsWithinBytes (doc.getline (i + k - 1)) (c - 1))
          (frags.getD k [])) →
      ∀ rs, (blockLoop doc i frags cs).2 = Except.ok rs → ∀ r ∈ rs, r.inBounds doc := by
  intro frags
  induction frags with
  | nil =>
    intro i cs _ _ rs hok r hr
    simp [blockLoop] at hok
    subst hok
    simp at hr
  | cons f rest ih =>
    intro i cs H Hc rs hok r hr
    match cs with
    | [] => simp [blockLoop] at hok
    | Except.error e :: cs2 => simp [blockLoop] at hok
    | Except.ok c :: cs2 =>
      simp only [blockLoop] at hok
      cases hres : (blockLoop doc (i + 1) rest cs2).2 with
      | error e =>
        rw [hres] at hok
        simp [Except.map] at hok
      | ok rs2 =>
        rw [hres] at hok
        simp only [Except.map, Except.ok.injEq] at hok
        subst hok
        rcases List.mem_cons.mp hr with hr0 | hrrest
        · subst hr0
          have hline : i - 1 < doc.lines.length := by
            have h5 := H 0 (by simp)
            simpa using h5
          have hsc := charsWithinBytes_le (doc.getline (i - 1)) (c - 1)
          have hfa := Hc 0 c (by simp) (by simp)
          simp only [Nat.add_zero, List.getD_cons_zero] at hfa
          have hend := fragmentAt_bound doc (i - 1) _ f hsc hfa
          exact ⟨hline, hline, hsc, hend⟩
        · refine ih (i + 1) cs2 ?_ ?_ rs2 hres r hrrest
          · intro k hk
            have h6 := H (k + 1) (Nat.succ_lt_succ hk)
            omega
          · intro k c2 hk hget
            have h7 := Hc (k + 1) c2 (Nat.succ_lt_succ hk) (by simpa using hget)
            have he : i + (k + 1) - 1 = i + 1 + k - 1 := by omega
            rw [he] at h7
            simpa using h7

/-- C9: under event/document consistency — the start line is at least 1, the
affected lines exist in the live document, and each captured fragment
(Char mode: the single line at the translated start column, or the last
fragment at column 0 of the last affected line; Block mode: the fragment at
the column answered by each `col('.')` query) is what the live document
holds there — every range produced by the yank handler lies inside the
document: both endpoint lines exist and neither endpoint character exceeds
the character length of its live line. -/
theorem c9_ranges_in_bounds (cfg : Config) (doc : Document) (ev : YankEvent)
    (lnum col : Nat) (cols : List (Except Unit Nat))
    (h1 : 1 ≤ lnum)
    (h2 : lnum - 1 + ev.regcontents.length ≤ doc.lines.length)
    (h3 : ev.regcontents ≠ [])
    (hv1 : ev.regtype = ['v'] → ∀ l, ev.regcontents = [l] →
      fragmentAt doc (lnum - 1) (charsWithinBytes (doc.getline (lnum - 1)) col) l)
    (hv2 : ev.regtype = ['v'] → 2 ≤ ev.regcontents.length →
      fragmentAt doc (lnum + ev.regcontents.length - 2) 0 (ev.regcontents.getLastD []))
    (hbl : ∀ k c, k < ev.regcontents.length → cols.get? k = some (Except.ok c) →
      fragmentAt doc (lnum + k - 1) (charsWithinBytes (doc.getline (lnum + k - 1)) (c - 1))
        (ev.regcontents.getD k [])) :
    ∀ r ∈ (handleYank cfg (some doc) ev lnum col cols).ranges, r.inBounds doc := by
  intro r hr
  simp only [handleYank] at hr
  by_cases hlim : (ev.regcontents.map byteLen).sum > cfg.byteLengthLimit
  · rw [if_pos hlim] at hr
    simp at hr
  · rw [if_neg hlim] at hr
    by_cases hop : ev.operator = ['y']
    · rw [if_pos hop] at hr
      by_cases hhe : (!cfg.highlightEnable) = true
      · rw [if_pos hhe] at hr
        simp at hr
      · rw [if_neg hhe] at hr
        by_cases hbk : isBlockReg ev.regtype = true
        · rw [if_pos hbk] at hr
          rcases hbr : blockRanges doc lnum ev.regcontents cols with ⟨evts, res⟩
          cases res with
          | error e =>
            rw [hbr] at hr
            simp at hr
          | ok rs =>
            rw [hbr] at hr
            simp only at hr
            have hloop : (blockLoop doc lnum ev.regcontents cols).2 = Except.ok rs := by
              rcases hbl2 : blockLoop doc lnum ev.regcontents cols with ⟨evts2, res2⟩
              cases res2 with
              | error e2 =>
                simp only [blockRanges, hbl2] at hbr
                exact congrArg Prod.snd hbr
              | ok rs2 =>
                simp only [blockRanges, hbl2, Prod.mk.injEq] at hbr
                exact hbr.2
            refine blockLoop_inBounds doc ev.regcontents lnum cols ?_ hbl rs hloop r hr
            intro k hk
            omega
        · rw [if_neg hbk] at hr
          by_cases hv : ev.regtype = ['v']
          · rw [if_pos hv] at hr
            simp only [List.mem_singleton] at hr
            subst hr
            obtain ⟨f, rest, hfr⟩ : ∃ f rest, ev.regcontents = f :: rest := by
              cases h4 : ev.regcontents with
              | nil => exact absurd h4 h3
              | cons a b => exact ⟨a, b, rfl⟩
            cases rest with
            | nil =>
              have hfa := hv1 hv f hfr
              have hc1 := charsWithinBytes_le (doc.getline (lnum - 1)) col
              have hb2 := fragmentAt_bound doc (lnum - 1) _ f hc1 hfa
              rw [hfr] at h2
              rw [hfr]
              simp only [Range.inBounds, charRange, List.length_cons, List.length_nil,
                List.headD_cons, List.length_singleton] at h2 ⊢
              have he : lnum + 1 - 2 = lnum - 1 := by omega
              rw [he]
              simp only [if_true]
              exact ⟨by omega, by omega, hc1, by omega⟩
            | cons g gs =>
              have hn2 : 2 ≤ ev.regcontents.length := by
                rw [hfr]
                simp
              have hfa := hv2 hv hn2
              have hb2 := fragmentAt_bound doc (lnum + ev.regcontents.length - 2) 0
                (ev.regcontents.getLastD []) (Nat.zero_le _) hfa
              have hc1 := charsWithinBytes_le (doc.getline (lnum - 1)) col
              rw [hfr] at h2 hb2 ⊢
              simp only [List.length_cons] at h2 hb2
              simp only [Range.inBounds, charRange, List.length_cons]
              have hne1 : gs.length + 1 + 1 ≠ 1 := by omega
              rw [if_neg hne1]
              refine ⟨by omega, by omega, hc1, by omega⟩
          · rw [if_neg hv] at hr
            by_cases hV : ev.regtype = ['V']
            · rw [if_pos hV] at hr
              simp only [lineRanges, List.mem_map, List.mem_range] at hr
              obtain ⟨k, hk, hrk⟩ := hr
              subst hrk
              have hkline : lnum + k - 1 < doc.lines.length := by omega
              exact ⟨hkline, hkline, Nat.zero_le _, Nat.le_refl _⟩
            · rw [if_neg hV] at hr
              simp at hr
    · rw [if_neg hop] at hr
      simp at hr

/-- Witness for `c9_ranges_in_bounds`: a Char-mode yank of the whole live
line produces the single in-bounds range of that line. -/
theorem c9_ranges_in_bounds_w :
    Range.inBounds ⟨[['a', 'b', 'c', 'd']], ['p'], ['u']⟩ ⟨⟨0, 0⟩, ⟨0, 3⟩⟩ :=
  c9_ranges_in_bounds ⟨10240, true, 500⟩ ⟨[['a', 'b', 'c', 'd']], ['p'], ['u']⟩
    ⟨['v'], ['y'], [['a', 'b', 'c', 'd']]⟩ 1 0 []
    (by decide) (by decide) (by decide)
    (by intro hx l hl
        injection hl with hl2 hl3
        subst hl2
        rfl)
    (by intro hx hn
        exact absurd hn (by decide))
    (by intro k c hk hget
        have hnone : (([] : List (Except Unit Nat)).get? k) = none :=
          List.get?_eq_none.mpr (by simp)
        rw [hnone] at hget
        exact Option.noConfusion hget)
    ⟨⟨0, 0⟩, ⟨0, 3⟩⟩ (by decide)

end Yank
